/-
Verification development for the emmet stylesheet abbreviation resolver
(src/stylesheet/index.ts) and the generic tree walker (the walk module).

The TypeScript source is shallowly embedded below:
* CSS value tokens and value groups become the mutual inductive types
  Value / CSSValue / ValueList / CSSValueList (a ValueList is the token
  array of one CSSValue value group; a CSSValueList is the argument array
  of a FunctionCall token).
* JavaScript numbers carried by NumberValue tokens are modelled as exact
  rationals (Rat); the whole-number test num === (num | 0) of the source
  is the test that the rational is an integer.
* The fuzzy scorer (the module score.ts, which is not part of the sources
  being verified) is a parameter sc : String → String → Rat of every
  function that scores candidates; calculateScore in the source is
  exactly this parameter.
* In-place mutation of nodes becomes functional update; functions of the
  source returning booleans while mutating their node argument return a
  pair (node, flag).
-/
import Mathlib

namespace Emmet

/-! ### Data model: CSS value tokens (from the css-abbreviation node types
used by src/stylesheet/index.ts) -/

mutual
/-- One CSS value token.  Mirrors the token union of the source:
ColorValue, Literal, NumberValue, StringValue, FunctionCall and Field.
A NumberValue keeps its unit as a string, the empty string standing for
the absent unit (JavaScript tests the unit with truthiness, so the empty
string and an absent unit behave identically in the source). -/
inductive Value where
  | ColorValue (raw : String)
  | Literal (value : String)
  | NumberValue (value : Rat) (unit : String)
  | StringValue (value : String) (singleQuote : Bool)
  | FunctionCall (name : String) (args : CSSValueList)
  | Field (index : Nat) (name : String)

/-- One value group (the CSSValue objects of the source: a record holding
an array of tokens). -/
inductive CSSValue where
  | mk (value : ValueList)

/-- The token array of a value group. -/
inductive ValueList where
  | nil
  | cons (head : Value) (tail : ValueList)

/-- The argument array of a FunctionCall (an array of value groups). -/
inductive CSSValueList where
  | nil
  | cons (head : CSSValue) (tail : CSSValueList)
end

/-- Token array of a value group (projection of the CSSValue record). -/
def CSSValue.value : CSSValue → ValueList
  | .mk vl => vl

/-- List append on token arrays. -/
def appendVL : ValueList → ValueList → ValueList
  | .nil, b => b
  | .cons v t, b => .cons v (appendVL t b)

/-- Pointwise map on the token array of a value group (used to model the
in-place per-token rewriting loops of the source). -/
def mapVL (f : Value → Value) : ValueList → ValueList
  | .nil => .nil
  | .cons v t => .cons (f v) (mapVL f t)

/-- A parsed abbreviation node (CSSProperty of the source): an optional
name and an array of value groups.  Resolution rewrites both fields. -/
structure CSSProperty where
  name : Option String
  value : List CSSValue

/-! ### getUnmatchedPart (src/stylesheet/index.ts, lines 161-171) -/

/-- str.indexOf(c, start) of JavaScript: the first index at or after
start holding character c, if any.  The auxiliary index i counts the
position of the list head. -/
def idxFromAux (c : Char) (start : Nat) : List Char → Nat → Option Nat
  | [], _ => none
  | x :: xs, i => if start ≤ i ∧ x = c then some i else idxFromAux c start xs (i + 1)

/-- str.indexOf(c, start). -/
def idxFrom (str : List Char) (c : Char) (start : Nat) : Option Nat :=
  idxFromAux c start str 0

/-- The loop of getUnmatchedPart: walks the remaining abbreviation
characters, advancing the cursor lastPos through the candidate; on the
first character not found it returns the whole remaining abbreviation
(abbr.slice(i) of the source). -/
def gupGo (str : List Char) : List Char → Nat → List Char
  | [], _ => []
  | c :: rest, lastPos =>
    match idxFrom str c lastPos with
    | none => c :: rest
    | some p => gupGo str rest (p + 1)

/-- getUnmatchedPart(abbr, str): the part of abbr that was not directly
matched against str (src/stylesheet/index.ts, lines 161-171). -/
def getUnmatchedPart (abbr str : String) : String :=
  ⟨gupGo str.toList abbr.toList 0⟩

theorem gupGo_suffix (str : List Char) :
    ∀ (l : List Char) (p : Nat), (gupGo str l p).IsSuffix l := by
  intro l
  induction l with
  | nil => intro p; simp [gupGo]
  | cons c rest ih =>
    intro p
    unfold gupGo
    cases h : idxFrom str c p with
    | none => exact List.suffix_refl _
    | some q => exact (ih (q + 1)).trans (List.suffix_cons c rest)

/-! ### findBestMatch (src/stylesheet/index.ts, lines 128-147)

The source is generic over MatchInput = CSSSnippet | CSSKeywordRef |
string and scores each item against getScoringPart(item); the embedding
is generic over the item type T with keyOf playing the role of
getScoringPart.  The optional minScore parameter (default 0) is an
Option Rat, none standing for an omitted argument. -/

/-- The loop of findBestMatch, carrying matchedItem and maxScore.
A score of exactly 1 short-circuits; a truthy (nonzero) score at least
maxScore overwrites both accumulators (note the >=: a later equal score
replaces the earlier match). -/
def findBestMatchGo {T : Type} (sc : String → String → Rat) (abbr : String)
    (keyOf : T → String) (minScore : Rat) :
    List T → Option T → Rat → Option T
  | [], matchedItem, maxScore => if minScore ≤ maxScore then matchedItem else none
  | item :: rest, matchedItem, maxScore =>
    let score := sc abbr (keyOf item)
    if score = 1 then some item
    else if score ≠ 0 ∧ maxScore ≤ score then
      findBestMatchGo sc abbr keyOf minScore rest (some item) score
    else
      findBestMatchGo sc abbr keyOf minScore rest matchedItem maxScore

/-- findBestMatch(abbr, items, minScore = 0): best fuzzy match of abbr
among items, or none. -/
def findBestMatch {T : Type} (sc : String → String → Rat) (abbr : String)
    (items : List T) (keyOf : T → String) (minScore : Option Rat) : Option T :=
  findBestMatchGo sc abbr keyOf (minScore.getD 0) items none 0

/-- Binary maximum on rationals, spelled with the order test of the core
library so that it evaluates by kernel reduction. -/
def ratMax (a b : Rat) : Rat := if a ≤ b then b else a

/-- The best score scanned so far after folding a list of items over an
initial accumulator value (maxScore of the source loop). -/
def bestScoreFrom {T : Type} (sc : String → String → Rat) (abbr : String)
    (keyOf : T → String) (items : List T) (init : Rat) : Rat :=
  items.foldl (fun m it => ratMax m (sc abbr (keyOf it))) init

/-- The best score over all items, clamped below by the initial maxScore
value 0 of the source loop. -/
def bestScore {T : Type} (sc : String → String → Rat) (abbr : String)
    (keyOf : T → String) (items : List T) : Rat :=
  bestScoreFrom sc abbr keyOf items 0

theorem ratMax_left (a b : Rat) : a ≤ ratMax a b := by
  unfold ratMax; split
  · assumption
  · exact le_refl a

theorem ratMax_right (a b : Rat) : b ≤ ratMax a b := by
  unfold ratMax; split
  · exact le_refl b
  · exact le_of_not_le (by assumption)

theorem ratMax_cases (a b : Rat) : ratMax a b = a ∨ ratMax a b = b := by
  unfold ratMax; split <;> simp

theorem bestScoreFrom_cons {T : Type} (sc : String → String → Rat) (abbr : String)
    (keyOf : T → String) (it : T) (items : List T) (init : Rat) :
    bestScoreFrom sc abbr keyOf (it :: items) init =
      bestScoreFrom sc abbr keyOf items (ratMax init (sc abbr (keyOf it))) := rfl

theorem le_bestScoreFrom {T : Type} (sc : String → String → Rat) (abbr : String)
    (keyOf : T → String) (items : List T) :
    ∀ init : Rat, init ≤ bestScoreFrom sc abbr keyOf items init := by
  induction items with
  | nil => intro init; exact le_refl _
  | cons it rest ih =>
    intro init
    calc init ≤ ratMax init (sc abbr (keyOf it)) := ratMax_left _ _
      _ ≤ _ := ih _

theorem bestScoreFrom_achieved {T : Type} (sc : String → String → Rat) (abbr : String)
    (keyOf : T → String) (items : List T) :
    ∀ init : Rat, bestScoreFrom sc abbr keyOf items init = init ∨
      ∃ it ∈ items, bestScoreFrom sc abbr keyOf items init = sc abbr (keyOf it) := by
  induction items with
  | nil => intro init; exact Or.inl rfl
  | cons it rest ih =>
    intro init
    rw [bestScoreFrom_cons]
    rcases ih (ratMax init (sc abbr (keyOf it))) with h | ⟨x, hx, heq⟩
    · rcases ratMax_cases init (sc abbr (keyOf it)) with hm | hm
      · exact Or.inl (h.trans hm)
      · exact Or.inr ⟨it, List.mem_cons_self .., h.trans hm⟩
    · exact Or.inr ⟨x, List.mem_cons_of_mem _ hx, heq⟩

theorem elem_le_bestScoreFrom {T : Type} (sc : String → String → Rat) (abbr : String)
    (keyOf : T → String) (items : List T) :
    ∀ init : Rat, ∀ it ∈ items, sc abbr (keyOf it) ≤ bestScoreFrom sc abbr keyOf items init := by
  induction items with
  | nil => intro _ it h; cases h
  | cons x rest ih =>
    intro init it h
    rcases List.mem_cons.1 h with rfl | h
    · rw [bestScoreFrom_cons]
      exact (ratMax_right _ _).trans (le_bestScoreFrom ..)
    · exact ih _ it h

theorem ratMax_eq_right {a b : Rat} (h : a ≤ b) : ratMax a b = b := by
  unfold ratMax; exact if_pos h

theorem ratMax_eq_left {a b : Rat} (h : b ≤ a) : ratMax a b = a := by
  unfold ratMax; split
  · exact le_antisymm h (by assumption)
  · rfl

theorem getLast?_cons_of_ne_nil {α : Type} (a : α) {l : List α} (h : l ≠ []) :
    (a :: l).getLast? = l.getLast? := by
  cases l with
  | nil => exact absurd rfl h
  | cons b t => exact List.getLast?_cons_cons

/-- Characterization of the findBestMatch loop when no item scores a
perfect 1: the result is the last item attaining the (positive) running
maximum if the maximum clears minScore, the carried matchedItem if no
item was ever tracked, and none below minScore. -/
theorem findBestMatchGo_spec {T : Type} (sc : String → String → Rat) (abbr : String)
    (keyOf : T → String) (ms : Rat) :
    ∀ (items : List T) (matchedItem : Option T) (maxScore : Rat),
      0 ≤ maxScore →
      (∀ it ∈ items, sc abbr (keyOf it) ≠ 1) →
      findBestMatchGo sc abbr keyOf ms items matchedItem maxScore =
        (if ms ≤ bestScoreFrom sc abbr keyOf items maxScore then
          match (items.filter (fun it =>
              decide (sc abbr (keyOf it) = bestScoreFrom sc abbr keyOf items maxScore ∧
                0 < bestScoreFrom sc abbr keyOf items maxScore))).getLast? with
          | some it => some it
          | none => matchedItem
         else none) := by
  intro items
  induction items with
  | nil =>
    intro matchedItem maxScore _ _
    simp [findBestMatchGo, bestScoreFrom]
  | cons it rest ih =>
    intro matchedItem maxScore h0 hnp
    have hit : sc abbr (keyOf it) ≠ 1 := hnp it (List.mem_cons_self ..)
    have hrest : ∀ x ∈ rest, sc abbr (keyOf x) ≠ 1 :=
      fun x hx => hnp x (List.mem_cons_of_mem _ hx)
    rw [show findBestMatchGo sc abbr keyOf ms (it :: rest) matchedItem maxScore =
        (if sc abbr (keyOf it) = 1 then some it
         else if sc abbr (keyOf it) ≠ 0 ∧ maxScore ≤ sc abbr (keyOf it) then
          findBestMatchGo sc abbr keyOf ms rest (some it) (sc abbr (keyOf it))
         else findBestMatchGo sc abbr keyOf ms rest matchedItem maxScore) from rfl]
    rw [if_neg hit]
    by_cases htrack : sc abbr (keyOf it) ≠ 0 ∧ maxScore ≤ sc abbr (keyOf it)
    · rw [if_pos htrack]
      have hspos : 0 < sc abbr (keyOf it) :=
        lt_of_le_of_ne (le_trans h0 htrack.2) (Ne.symm htrack.1)
      have hM : bestScoreFrom sc abbr keyOf (it :: rest) maxScore =
          bestScoreFrom sc abbr keyOf rest (sc abbr (keyOf it)) := by
        rw [bestScoreFrom_cons, ratMax_eq_right htrack.2]
      rw [ih (some it) (sc abbr (keyOf it)) (le_of_lt hspos) hrest, hM]
      set M := bestScoreFrom sc abbr keyOf rest (sc abbr (keyOf it)) with hMdef
      have hMpos : 0 < M := lt_of_lt_of_le hspos (le_bestScoreFrom ..)
      by_cases hms : ms ≤ M
      · rw [if_pos hms, if_pos hms]
        by_cases hfe : rest.filter (fun x => decide (sc abbr (keyOf x) = M ∧ 0 < M)) = []
        · -- no item of rest attains the maximum: the head does
          have hhead : sc abbr (keyOf it) = M := by
            rcases bestScoreFrom_achieved sc abbr keyOf rest (sc abbr (keyOf it)) with h | ⟨x, hx, hxeq⟩
            · exact h.symm
            · exfalso
              have : x ∈ rest.filter (fun x => decide (sc abbr (keyOf x) = M ∧ 0 < M)) :=
                List.mem_filter.2 ⟨hx, by simp [hxeq.symm, hMpos]⟩
              rw [hfe] at this
              cases this
          have hflt : (it :: rest).filter (fun x => decide (sc abbr (keyOf x) = M ∧ 0 < M)) = [it] := by
            rw [List.filter_cons, if_pos (by simp [hhead, hMpos]), hfe]
          rw [hflt, hfe]
          rfl
        · have hflt : (it :: rest).filter (fun x => decide (sc abbr (keyOf x) = M ∧ 0 < M)) =
              if (sc abbr (keyOf it) = M ∧ 0 < M : Prop) then
                it :: rest.filter (fun x => decide (sc abbr (keyOf x) = M ∧ 0 < M))
              else rest.filter (fun x => decide (sc abbr (keyOf x) = M ∧ 0 < M)) := by
            rw [List.filter_cons]; split <;> simp_all
          rw [hflt]
          by_cases hpred : (sc abbr (keyOf it) = M ∧ 0 < M)
          · rw [if_pos hpred, getLast?_cons_of_ne_nil _ hfe]
            rcases hx : (rest.filter (fun x => decide (sc abbr (keyOf x) = M ∧ 0 < M))).getLast? with _ | x
            · exact absurd (List.getLast?_eq_none_iff.1 hx) hfe
            · rfl
          · rw [if_neg hpred]
            rcases hx : (rest.filter (fun x => decide (sc abbr (keyOf x) = M ∧ 0 < M))).getLast? with _ | x
            · exact absurd (List.getLast?_eq_none_iff.1 hx) hfe
            · rfl
      · rw [if_neg hms, if_neg hms]
    · rw [if_neg htrack]
      have hle : sc abbr (keyOf it) ≤ maxScore := by
        rcases not_and_or.1 htrack with h | h
        · rw [not_not.1 h]; exact h0
        · exact le_of_not_le h
      have hM : bestScoreFrom sc abbr keyOf (it :: rest) maxScore =
          bestScoreFrom sc abbr keyOf rest maxScore := by
        rw [bestScoreFrom_cons, ratMax_eq_left hle]
      rw [ih matchedItem maxScore h0 hrest, hM]
      set M := bestScoreFrom sc abbr keyOf rest maxScore with hMdef
      have hnotpred : ¬(sc abbr (keyOf it) = M ∧ 0 < M) := by
        rintro ⟨heq, hpos⟩
        have hMge : maxScore ≤ M := le_bestScoreFrom ..
        rcases not_and_or.1 htrack with h | h
        · rw [not_not.1 h] at heq; exact absurd heq.symm (ne_of_gt hpos)
        · exact h (heq ▸ hMge)
      have : (it :: rest).filter (fun x => decide (sc abbr (keyOf x) = M ∧ 0 < M)) =
          rest.filter (fun x => decide (sc abbr (keyOf x) = M ∧ 0 < M)) := by
        rw [List.filter_cons, if_neg (by simpa using hnotpred)]
      rw [this]

/-- The loop returns the first item scoring a perfect 1, whatever the
accumulators hold. -/
theorem findBestMatchGo_first_perfect {T : Type} (sc : String → String → Rat) (abbr : String)
    (keyOf : T → String) (ms : Rat) :
    ∀ (items : List T) (matchedItem : Option T) (maxScore : Rat) (it₀ : T),
      items.find? (fun it => decide (sc abbr (keyOf it) = 1)) = some it₀ →
      findBestMatchGo sc abbr keyOf ms items matchedItem maxScore = some it₀ := by
  intro items
  induction items with
  | nil => intro _ _ _ h; simp [List.find?] at h
  | cons it rest ih =>
    intro matchedItem maxScore it₀ h
    by_cases hp : sc abbr (keyOf it) = 1
    · have hit : it₀ = it := by
        rw [List.find?_cons] at h
        simp [hp] at h
        exact h.symm
      subst hit
      rw [show findBestMatchGo sc abbr keyOf ms (it₀ :: rest) matchedItem maxScore =
          (if sc abbr (keyOf it₀) = 1 then some it₀
           else if sc abbr (keyOf it₀) ≠ 0 ∧ maxScore ≤ sc abbr (keyOf it₀) then
            findBestMatchGo sc abbr keyOf ms rest (some it₀) (sc abbr (keyOf it₀))
           else findBestMatchGo sc abbr keyOf ms rest matchedItem maxScore) from rfl]
      rw [if_pos hp]
    · have h2 : rest.find? (fun x => decide (sc abbr (keyOf x) = 1)) = some it₀ := by
        rw [List.find?_cons] at h
        simpa [hp] using h
      rw [show findBestMatchGo sc abbr keyOf ms (it :: rest) matchedItem maxScore =
          (if sc abbr (keyOf it) = 1 then some it
           else if sc abbr (keyOf it) ≠ 0 ∧ maxScore ≤ sc abbr (keyOf it) then
            findBestMatchGo sc abbr keyOf ms rest (some it) (sc abbr (keyOf it))
           else findBestMatchGo sc abbr keyOf ms rest matchedItem maxScore) from rfl]
      rw [if_neg hp]
      split
      · exact ih (some it) _ it₀ h2
      · exact ih matchedItem maxScore it₀ h2

/-- One half, written in lowest terms so that order and equality tests on
it reduce in the kernel (a stand-in for a fractional fuzzy score). -/
def halfScore : Rat := ⟨1, 2, by omega, Nat.coprime_one_left 2⟩

/-- C1: the claim states that among items sharing the identical best
(non-perfect) score, findBestMatch returns the first in input order and
later equal scores do not overwrite the tracked match.  This is false:
the loop condition of the source uses score >= maxScore, so a later
equal score does overwrite.  Concretely, with both items scoring 1/2,
the second item is returned, not the first. -/
theorem C1_counterexample :
    findBestMatch (fun _ c => if c = "aa" ∨ c = "bb" then halfScore else 0) "x"
        ["aa", "bb"] (fun s => s) none = some "bb" ∧
    findBestMatch (fun _ c => if c = "aa" ∨ c = "bb" then halfScore else 0) "x"
        ["aa", "bb"] (fun s => s) none ≠ some "aa" := by
  decide

/-- C1 (amended): when no item scores a perfect 1 and the best score is
positive and clears the minimum, findBestMatch returns the last item (in
input order) attaining the best score: equal scores seen later do
overwrite the earlier tracked match. -/
theorem C1_last_tie_wins {T : Type} (sc : String → String → Rat) (abbr : String)
    (keyOf : T → String) (minScore : Option Rat) (items : List T)
    (hnp : ∀ it ∈ items, sc abbr (keyOf it) ≠ 1)
    (hpos : 0 < bestScore sc abbr keyOf items)
    (hmin : minScore.getD 0 ≤ bestScore sc abbr keyOf items) :
    findBestMatch sc abbr items keyOf minScore =
      (items.filter (fun it =>
        decide (sc abbr (keyOf it) = bestScore sc abbr keyOf items))).getLast? := by
  unfold findBestMatch
  rw [findBestMatchGo_spec sc abbr keyOf (minScore.getD 0) items none 0 le_rfl hnp]
  unfold bestScore at hpos hmin ⊢
  rw [if_pos hmin]
  have hfil : items.filter (fun it =>
        decide (sc abbr (keyOf it) = bestScoreFrom sc abbr keyOf items 0 ∧
          0 < bestScoreFrom sc abbr keyOf items 0)) =
      items.filter (fun it =>
        decide (sc abbr (keyOf it) = bestScoreFrom sc abbr keyOf items 0)) := by
    apply List.filter_congr
    intro x _
    simp [hpos]
  rw [hfil]
  rcases h : (items.filter (fun it =>
      decide (sc abbr (keyOf it) = bestScoreFrom sc abbr keyOf items 0))).getLast? with _ | x
  · rfl
  · rfl

/-- Witness for C1 (amended): two items tied at 1/2, the later one wins. -/
theorem C1_witness :
    (∀ it ∈ (["aa", "bb"] : List String),
      (fun (_ : String) c => if c = "aa" ∨ c = "bb" then halfScore else 0) "x" it ≠ 1) ∧
    (0 : Rat) < bestScore (fun _ c => if c = "aa" ∨ c = "bb" then halfScore else 0) "x"
      (fun s => s) ["aa", "bb"] ∧
    findBestMatch (fun _ c => if c = "aa" ∨ c = "bb" then halfScore else 0) "x"
        ["aa", "bb"] (fun s => s) none =
      ((["aa", "bb"] : List String).filter (fun it =>
        decide ((fun (_ : String) c => if c = "aa" ∨ c = "bb" then halfScore else 0) "x" it =
          bestScore (fun _ c => if c = "aa" ∨ c = "bb" then halfScore else 0) "x"
            (fun s => s) ["aa", "bb"]))).getLast? :=
  ⟨by decide, by decide,
    C1_last_tie_wins (fun _ c => if c = "aa" ∨ c = "bb" then halfScore else 0) "x"
      (fun s => s) none ["aa", "bb"] (by decide) (by decide) (by decide)⟩

/-- C6: getUnmatchedPart returns the suffix of the pattern left
unconsumed by greedily advancing a cursor through the candidate for each
pattern character; in particular the three concrete values of the claim
hold, and in general the result is a suffix of the pattern. -/
theorem C6_unmatched_part :
    getUnmatchedPart "poas" "position" = "as" ∧
    getUnmatchedPart "abc" "xyz" = "abc" ∧
    getUnmatchedPart "pos" "position" = "" ∧
    ∀ abbr str : String, (getUnmatchedPart abbr str).toList.IsSuffix abbr.toList :=
  ⟨by decide, by decide, by decide, fun abbr str => gupGo_suffix str.toList abbr.toList 0⟩

/-- C8: findBestMatch returns the first item scoring a perfect 1 (the
loop short-circuits there), and — for any minimum score that is a valid
score threshold (at most 1) — it returns none exactly when the best
score is below the minimum or no candidate scored above 0. -/
theorem C8_perfect_and_none_iff {T : Type} (sc : String → String → Rat) (abbr : String)
    (keyOf : T → String) (minScore : Option Rat) (items : List T)
    (hms : minScore.getD 0 ≤ 1) :
    (∀ it₀ : T, items.find? (fun it => decide (sc abbr (keyOf it) = 1)) = some it₀ →
      findBestMatch sc abbr items keyOf minScore = some it₀) ∧
    (findBestMatch sc abbr items keyOf minScore = none ↔
      (bestScore sc abbr keyOf items < minScore.getD 0 ∨
        bestScore sc abbr keyOf items = 0)) := by
  constructor
  · intro it₀ h
    exact findBestMatchGo_first_perfect sc abbr keyOf _ items none 0 it₀ h
  · by_cases hp : ∀ it ∈ items, sc abbr (keyOf it) ≠ 1
    · unfold findBestMatch bestScore
      rw [findBestMatchGo_spec sc abbr keyOf _ items none 0 le_rfl hp]
      set M := bestScoreFrom sc abbr keyOf items 0 with hMdef
      have hM0 : (0 : Rat) ≤ M := le_bestScoreFrom ..
      by_cases hms2 : minScore.getD 0 ≤ M
      · rw [if_pos hms2]
        by_cases hMpos : (0 : Rat) < M
        · obtain ⟨x, hx, hxeq⟩ : ∃ x ∈ items, sc abbr (keyOf x) = M := by
            rcases bestScoreFrom_achieved sc abbr keyOf items 0 with h | ⟨x, hx, hxeq⟩
            · exact absurd (hMdef.trans h) (ne_of_gt hMpos)
            · exact ⟨x, hx, hxeq.symm⟩
          have hne : items.filter (fun it => decide (sc abbr (keyOf it) = M ∧ 0 < M)) ≠ [] := by
            intro hcontra
            have hmem : x ∈ items.filter (fun it => decide (sc abbr (keyOf it) = M ∧ 0 < M)) :=
              List.mem_filter.2 ⟨hx, by simp [hxeq, hMpos]⟩
            rw [hcontra] at hmem
            cases hmem
          rcases hL : (items.filter (fun it =>
              decide (sc abbr (keyOf it) = M ∧ 0 < M))).getLast? with _ | y
          · exact absurd (List.getLast?_eq_none_iff.1 hL) hne
          · apply iff_of_false
            · simp
            · rintro (h | h)
              · exact absurd hms2 (not_le.2 h)
              · exact absurd h (ne_of_gt hMpos)
        · have hMz : M = 0 := le_antisymm (not_lt.1 hMpos) hM0
          have hfe : items.filter (fun it => decide (sc abbr (keyOf it) = M ∧ 0 < M)) = [] := by
            apply List.filter_eq_nil_iff.2
            intro a _
            simp [hMz]
          rw [hfe]
          apply iff_of_true
          · rfl
          · exact Or.inr hMz
      · rw [if_neg hms2]
        apply iff_of_true
        · rfl
        · exact Or.inl (not_le.1 hms2)
    · push_neg at hp
      obtain ⟨x, hxmem, hx1⟩ := hp
      obtain ⟨it₀, hit₀⟩ : ∃ it₀, items.find? (fun it =>
          decide (sc abbr (keyOf it) = 1)) = some it₀ := by
        have hs : (items.find? (fun it => decide (sc abbr (keyOf it) = 1))).isSome := by
          rw [List.find?_isSome]
          exact ⟨x, hxmem, by simp [hx1]⟩
        exact Option.isSome_iff_exists.1 hs
      have hres : findBestMatch sc abbr items keyOf minScore = some it₀ :=
        findBestMatchGo_first_perfect sc abbr keyOf _ items none 0 it₀ hit₀
      rw [hres]
      have hble : (1 : Rat) ≤ bestScore sc abbr keyOf items := by
        calc (1 : Rat) = sc abbr (keyOf x) := hx1.symm
          _ ≤ _ := elem_le_bestScoreFrom sc abbr keyOf items 0 x hxmem
      apply iff_of_false
      · simp
      · rintro (h | h)
        · exact absurd (le_trans hms hble) (not_le.2 h)
        · rw [h] at hble
          exact absurd hble (by norm_num)

/-- Witness for C8: a perfect hit short-circuits to the first perfect
item, and the none-characterization holds at the same input. -/
theorem C8_witness :
    ((some 0 : Option Rat).getD 0 ≤ 1) ∧
    findBestMatch (fun _ c => if c = "pp" then 1 else halfScore) "x"
        ["qq", "pp"] (fun s => s) (some 0) = some "pp" :=
  ⟨by decide,
    (C8_perfect_and_none_iff (fun _ c => if c = "pp" then 1 else halfScore) "x"
        (fun s => s) (some 0) ["qq", "pp"] (by decide)).1 "pp" (by decide)⟩

/-! ### Config (the resolution-relevant options of src/config) -/

/-- The slice of Config read during stylesheet resolution:
context, stylesheet.fuzzySearchMinScore, stylesheet.unitAliases,
stylesheet.unitless, stylesheet.intUnit, stylesheet.floatUnit and
stylesheet.keywords. -/
structure Config where
  context : Option String
  fuzzySearchMinScore : Rat
  unitAliases : List (String × String)
  unitless : List String
  intUnit : String
  floatUnit : String
  keywords : List String

/-! ### resolveNumericValue (src/stylesheet/index.ts, lines 202-221) -/

/-- aliases[u]: property lookup in the unit-alias object. -/
def lookupAlias (aliases : List (String × String)) (u : String) : Option String :=
  (aliases.find? (fun p => p.1 == u)).map (fun p => p.2)

/-- aliases[t.unit] || t.unit of the source: the configured alias if
present and truthy (non-empty), the unit itself otherwise. -/
def aliasSub (cfg : Config) (u : String) : String :=
  match lookupAlias cfg.unitAliases u with
  | some a => if a = "" then u else a
  | none => u

/-- unitless.includes(node.name!): a node without a name is never in the
unitless set (includes(undefined) is false). -/
def unitlessHas (cfg : Config) (name : Option String) : Bool :=
  match name with
  | some n => cfg.unitless.contains n
  | none => false

/-- ToInt32 of an integer (what JavaScript's n | 0 computes on an
integral number): reduce modulo 2^32 into [0, 2^32) and shift the upper
half down, landing in [-2^31, 2^31). -/
def toInt32 (n : Int) : Int :=
  let m := n % 4294967296
  if m < 2147483648 then m else m - 4294967296

/-- The whole-number test of the source, t.value === (t.value | 0).
The | 0 operator truncates toward zero and wraps through ToInt32, so on
a rational the equality holds exactly when the value is an integer
(den = 1) equal to its own int32 wrap; a whole value outside
[-2^31, 2^31) fails the test. -/
def isInt32Value (q : Rat) : Bool :=
  q.den == 1 && q.num == toInt32 q.num

theorem toInt32_eq_self_iff (n : Int) :
    toInt32 n = n ↔ -2147483648 ≤ n ∧ n < 2147483648 := by
  simp only [toInt32]
  split <;> omega

theorem isInt32Value_iff (q : Rat) :
    isInt32Value q = true ↔
      q.den = 1 ∧ -2147483648 ≤ q.num ∧ q.num < 2147483648 := by
  unfold isInt32Value
  rw [Bool.and_eq_true, beq_iff_eq, beq_iff_eq]
  constructor
  · rintro ⟨h1, h2⟩
    exact ⟨h1, (toInt32_eq_self_iff q.num).1 h2.symm⟩
  · rintro ⟨h1, h2⟩
    exact ⟨h1, ((toInt32_eq_self_iff q.num).2 h2).symm⟩

/-- The per-token body of the resolveNumericValue loop.  A token with a
(truthy, i.e. non-empty) unit gets the alias substitution; a unitless
nonzero token on a non-unitless property gets the default unit, intUnit
when t.value === (t.value | 0) — the value is an integer surviving the
int32 wrap — and floatUnit otherwise; all other tokens pass through
unchanged. -/
def resolveNumericToken (cfg : Config) (name : Option String) : Value → Value
  | .NumberValue q u =>
    if u ≠ "" then .NumberValue q (aliasSub cfg u)
    else if q ≠ 0 ∧ unitlessHas cfg name = false then
      .NumberValue q (if isInt32Value q then cfg.intUnit else cfg.floatUnit)
    else .NumberValue q u
  | t => t

/-- resolveNumericValue: rewrites the top-level tokens of every value
group of the node (the source loop iterates node.value and each group's
token array; it does not descend into FunctionCall arguments). -/
def resolveNumericValue (node : CSSProperty) (cfg : Config) : CSSProperty :=
  { node with value := node.value.map (fun cv =>
      CSSValue.mk (mapVL (resolveNumericToken cfg node.name) cv.value)) }

/-- The unit of the leading numeric token of the first value group
(an observer used to tell two resolution results apart). -/
def firstTokenUnit (node : CSSProperty) : String :=
  match node.value with
  | (CSSValue.mk (.cons (.NumberValue _ u) _)) :: _ => u
  | _ => ""

/-- A configuration whose unit-alias map chains: p rewrites to q and q
rewrites to r. -/
def cfgChain : Config :=
  { context := none, fuzzySearchMinScore := 0,
    unitAliases := [("p", "q"), ("q", "r")], unitless := [],
    intUnit := "px", floatUnit := "em", keywords := [] }

/-- A node whose single value is the number 1 with explicit unit p. -/
def nodeChain : CSSProperty :=
  { name := some "margin",
    value := [CSSValue.mk (.cons (.NumberValue 1 "p") .nil)] }

/-- A configuration for the nested-token counterexample. -/
def cfgNested : Config :=
  { context := none, fuzzySearchMinScore := 0,
    unitAliases := [("p", "%")], unitless := ["opacity"],
    intUnit := "px", floatUnit := "em", keywords := [] }

/-- A node whose value is calc(10): the numeric token 10 sits inside a
FunctionCall argument. -/
def nodeNested : CSSProperty :=
  { name := some "margin",
    value := [CSSValue.mk (.cons (.FunctionCall "calc"
      (.cons (CSSValue.mk (.cons (.NumberValue 10 "") .nil)) .nil)) .nil)] }

/-- The whole number 2^31, written in lowest terms so that the kernel
evaluates arithmetic on it. -/
def bigWhole : Rat := ⟨2147483648, 1, by omega, Nat.coprime_one_right _⟩

/-- A node whose single top-level value is the whole number 2^31 with
no unit. -/
def nodeBig : CSSProperty :=
  { name := some "margin",
    value := [CSSValue.mk (.cons (.NumberValue bigWhole "") .nil)] }

/-- C4: two divergences from the claim.  First, the claim quantifies
over every numeric token in a node's resolved value, but
resolveNumericValue only visits the top-level tokens of each value
group: with the value calc(10), the nested token 10 is unitless,
nonzero and margin is not in the unitless set, so by the claim it
should receive the integer default unit px — but the code leaves the
node completely unchanged.  Second, the claim's whole-number rule is
the source test t.value === (t.value | 0), which wraps at 2^31: the
whole value 2147483648 is nonzero and unitless, yet receives the
float default unit em, not the integer default px the claim assigns
to whole numbers. -/
theorem C4_counterexample :
    (resolveNumericValue nodeNested cfgNested = nodeNested ∧
     unitlessHas cfgNested (some "margin") = false ∧
     cfgNested.intUnit = "px" ∧ (10 : Rat) ≠ 0) ∧
    (resolveNumericValue nodeBig cfgNested =
      { name := some "margin",
        value := [CSSValue.mk (.cons (.NumberValue bigWhole "em") .nil)] } ∧
     bigWhole.den = 1 ∧ bigWhole ≠ 0 ∧ cfgNested.floatUnit = "em") := by
  refine ⟨⟨rfl, by decide, rfl, by norm_num⟩, rfl, rfl, by decide, rfl⟩

/-- C4 (amended): resolveNumericValue rewrites exactly the top-level
tokens of each value group with the per-token rules of the claim —
alias substitution on an explicit unit (no change when no alias is
configured), a default unit on nonzero unitless numbers of
non-unitless properties (the integer default exactly when the value
passes the source's t.value === (t.value | 0) test, i.e. is an integer
in [-2^31, 2^31), the float default otherwise), no unit on zero —
while tokens nested inside FunctionCall arguments are left
untouched. -/
theorem C4_numeric_rules (cfg : Config) :
    (∀ node : CSSProperty, resolveNumericValue node cfg =
      { name := node.name,
        value := node.value.map (fun cv =>
          CSSValue.mk (mapVL (resolveNumericToken cfg node.name) cv.value)) }) ∧
    (∀ (name : Option String) (q : Rat) (u : String), u ≠ "" →
      resolveNumericToken cfg name (.NumberValue q u) = .NumberValue q (aliasSub cfg u)) ∧
    (∀ u : String, lookupAlias cfg.unitAliases u = none → aliasSub cfg u = u) ∧
    (∀ (name : Option String) (q : Rat), q ≠ 0 → unitlessHas cfg name = false →
      resolveNumericToken cfg name (.NumberValue q "") =
        .NumberValue q (if isInt32Value q then cfg.intUnit else cfg.floatUnit)) ∧
    (∀ name : Option String,
      resolveNumericToken cfg name (.NumberValue 0 "") = .NumberValue 0 "") ∧
    (∀ (name : Option String) (fname : String) (args : CSSValueList),
      resolveNumericToken cfg name (.FunctionCall fname args) = .FunctionCall fname args) ∧
    (∀ q : Rat, isInt32Value q = true ↔
      q.den = 1 ∧ -2147483648 ≤ q.num ∧ q.num < 2147483648) := by
  refine ⟨fun node => rfl, ?_, ?_, ?_, ?_, fun name fname args => rfl, isInt32Value_iff⟩
  · intro name q u hu
    simp [resolveNumericToken, hu]
  · intro u hl
    simp [aliasSub, hl]
  · intro name q hq hless
    simp [resolveNumericToken, hq, hless]
  · intro name
    simp [resolveNumericToken]

/-- Witness for C4 (amended): the alias branch at a concrete unit. -/
theorem C4_witness :
    ("p" : String) ≠ "" ∧
    resolveNumericToken cfgNested (some "margin") (.NumberValue 3 "p") =
      .NumberValue 3 (aliasSub cfgNested "p") :=
  ⟨by decide, (C4_numeric_rules cfgNested).2.1 (some "margin") 3 "p" (by decide)⟩

/-- C5: the claim asserts idempotence of numeric-unit inference for
every node and config.  With the chaining alias map p → q, q → r, the
unit of the value 1p becomes q after one resolution and r after a
second one: the second run is not a no-op. -/
theorem C5_counterexample :
    resolveNumericValue (resolveNumericValue nodeChain cfgChain) cfgChain ≠
      resolveNumericValue nodeChain cfgChain ∧
    firstTokenUnit (resolveNumericValue nodeChain cfgChain) = "q" ∧
    firstTokenUnit (resolveNumericValue (resolveNumericValue nodeChain cfgChain) cfgChain) = "r" :=
  ⟨fun h => absurd (congrArg firstTokenUnit h) (by decide), rfl, rfl⟩

/-- Stability of the alias map: every alias target, and the two default
units, are fixed points of the alias substitution.  This is exactly what
one pass of resolveNumericValue can introduce as new unit strings. -/
@[reducible] def aliasStable (cfg : Config) : Prop :=
  (∀ p ∈ cfg.unitAliases, aliasSub cfg p.2 = p.2) ∧
  aliasSub cfg cfg.intUnit = cfg.intUnit ∧
  aliasSub cfg cfg.floatUnit = cfg.floatUnit

theorem aliasSub_some (cfg : Config) (u a : String)
    (hl : lookupAlias cfg.unitAliases u = some a) :
    aliasSub cfg u = if a = "" then u else a := by
  unfold aliasSub; rw [hl]

theorem aliasSub_none (cfg : Config) (u : String)
    (hl : lookupAlias cfg.unitAliases u = none) :
    aliasSub cfg u = u := by
  unfold aliasSub; rw [hl]

theorem aliasSub_ne_empty (cfg : Config) (u : String) (hu : u ≠ "") :
    aliasSub cfg u ≠ "" := by
  rcases hl : lookupAlias cfg.unitAliases u with _ | a
  · rw [aliasSub_none cfg u hl]; exact hu
  · rw [aliasSub_some cfg u a hl]
    by_cases ha : a = ""
    · rw [if_pos ha]; exact hu
    · rw [if_neg ha]; exact ha

theorem aliasSub_idem (cfg : Config) (h : aliasStable cfg) (u : String) :
    aliasSub cfg (aliasSub cfg u) = aliasSub cfg u := by
  rcases hl : lookupAlias cfg.unitAliases u with _ | a
  · rw [aliasSub_none cfg u hl]
    exact aliasSub_none cfg u hl
  · by_cases ha : a = ""
    · -- an empty alias value is falsy: the substitution keeps u, and
      -- rewriting u again retraces the same computation
      rw [show aliasSub cfg u = u from (aliasSub_some cfg u a hl).trans (if_pos ha)]
      exact (aliasSub_some cfg u a hl).trans (if_pos ha)
    · rw [show aliasSub cfg u = a from (aliasSub_some cfg u a hl).trans (if_neg ha)]
      obtain ⟨p, hfind, hpa⟩ :
          ∃ p, cfg.unitAliases.find? (fun p => p.1 == u) = some p ∧ p.2 = a := by
        unfold lookupAlias at hl
        rcases hf : cfg.unitAliases.find? (fun p => p.1 == u) with _ | p
        · rw [hf] at hl; cases hl
        · rw [hf] at hl
          exact ⟨p, hf, by simpa using hl⟩
      exact hpa ▸ h.1 p (List.mem_of_find?_eq_some hfind)

theorem resolveNumericToken_idem (cfg : Config) (name : Option String)
    (h : aliasStable cfg) (t : Value) :
    resolveNumericToken cfg name (resolveNumericToken cfg name t) =
      resolveNumericToken cfg name t := by
  cases t with
  | NumberValue q u =>
    by_cases hu : u = ""
    · subst hu
      by_cases hq : q ≠ 0 ∧ unitlessHas cfg name = false
      · rw [show resolveNumericToken cfg name (.NumberValue q "") =
            .NumberValue q (if isInt32Value q then cfg.intUnit else cfg.floatUnit) by
          simp [resolveNumericToken, hq.1, hq.2]]
        by_cases hdu : (if isInt32Value q then cfg.intUnit else cfg.floatUnit) = ""
        · rw [hdu]
          simp [resolveNumericToken, hq.1, hq.2, hdu]
        · have hsub : aliasSub cfg (if isInt32Value q then cfg.intUnit else cfg.floatUnit) =
              (if isInt32Value q then cfg.intUnit else cfg.floatUnit) := by
            split
            · exact h.2.1
            · exact h.2.2
          simp [resolveNumericToken, hdu, hsub]
      · simp [resolveNumericToken, hq]
    · rw [show resolveNumericToken cfg name (.NumberValue q u) =
          .NumberValue q (aliasSub cfg u) by simp [resolveNumericToken, hu]]
      have hne := aliasSub_ne_empty cfg u hu
      simp [resolveNumericToken, hne, aliasSub_idem cfg h u]
  | ColorValue raw => rfl
  | Literal v => rfl
  | StringValue v sq => rfl
  | FunctionCall n args => rfl
  | Field i n => rfl

theorem mapVL_idem (f : Value → Value) (h : ∀ v, f (f v) = f v) :
    ∀ vl : ValueList, mapVL f (mapVL f vl) = mapVL f vl
  | .nil => rfl
  | .cons v t => by simp [mapVL, h v, mapVL_idem f h t]

/-- C5 (amended): a token with an explicit unit is only ever changed by
alias substitution (its numeric value is preserved), and whenever the
alias map is stable on its own targets and on the default units —
aliasStable — a second run of resolveNumericValue is a no-op.  The
stability hypothesis is forced by the counterexample: a chaining alias
map (p → q, q → r) rewrites the unit differently on the second run. -/
theorem C5_idempotent_of_aliasStable (cfg : Config) (h : aliasStable cfg)
    (node : CSSProperty) :
    resolveNumericValue (resolveNumericValue node cfg) cfg =
      resolveNumericValue node cfg ∧
    (∀ (q : Rat) (u : String), u ≠ "" →
      resolveNumericToken cfg node.name (.NumberValue q u) =
        .NumberValue q (aliasSub cfg u)) := by
  constructor
  · have hval : ∀ l : List CSSValue,
        (l.map (fun cv => CSSValue.mk (mapVL (resolveNumericToken cfg node.name) cv.value))).map
            (fun cv => CSSValue.mk (mapVL (resolveNumericToken cfg node.name) cv.value)) =
          l.map (fun cv => CSSValue.mk (mapVL (resolveNumericToken cfg node.name) cv.value)) := by
      intro l
      induction l with
      | nil => rfl
      | cons cv t ih =>
        cases cv with
        | mk vl =>
          simp only [List.map_cons, CSSValue.value]
          rw [mapVL_idem _ (resolveNumericToken_idem cfg node.name h) vl]
          exact congrArg (List.cons _) ih
    have hstep : resolveNumericValue (resolveNumericValue node cfg) cfg =
        { name := node.name,
          value := (node.value.map (fun cv =>
              CSSValue.mk (mapVL (resolveNumericToken cfg node.name) cv.value))).map
            (fun cv => CSSValue.mk (mapVL (resolveNumericToken cfg node.name) cv.value)) } := rfl
    rw [hstep, hval node.value]
    rfl
  · intro q u hu
    simp [resolveNumericToken, hu]

/-- A stable configuration (the shape of the default emmet options:
e → em, p → %, x → ex, r → rem; px and em are not alias keys). -/
def cfgStable : Config :=
  { context := none, fuzzySearchMinScore := 0,
    unitAliases := [("e", "em"), ("p", "%"), ("x", "ex"), ("r", "rem")],
    unitless := ["z-index", "opacity"],
    intUnit := "px", floatUnit := "em", keywords := [] }

/-- Witness for C5 (amended): one concrete stable config and node. -/
theorem C5_witness :
    aliasStable cfgStable ∧
    resolveNumericValue (resolveNumericValue nodeChain cfgStable) cfgStable =
      resolveNumericValue nodeChain cfgStable :=
  ⟨by decide, (C5_idempotent_of_aliasStable cfgStable (by decide) nodeChain).1⟩

/-! ### hasField and wrapWithField (src/stylesheet/index.ts, lines 259-312) -/

mutual
/-- hasField(value): whether a value group contains a Field token,
looking through FunctionCall arguments. -/
def hasField : CSSValue → Bool
  | .mk vl => hasFieldVL vl

def hasFieldVL : ValueList → Bool
  | .nil => false
  | .cons v rest =>
    (match v with
     | .Field _ _ => true
     | .FunctionCall _ args => hasFieldArgs args
     | _ => false) || hasFieldVL rest

def hasFieldArgs : CSSValueList → Bool
  | .nil => false
  | .cons a rest => hasField a || hasFieldArgs rest
end

/-- Rendering of a numeric value for a field placeholder (the template
`${v.value}${v.unit}` of the source; the exact digits JavaScript would
print are irrelevant to every claim, only that some text is produced). -/
def ratText (q : Rat) : String :=
  if q.den = 1 then toString q.num else toString q.num ++ "/" ++ toString q.den

mutual
/-- The token loop of wrapWithField over one value group, with the
mutable state {index} passed explicitly: every leaf token becomes a
Field carrying the next index; a FunctionCall becomes a Field for its
name, a literal open parenthesis, its arguments each wrapped with the
same shared state and joined by literal separators, and a literal close
parenthesis; an existing Field token falls to the default branch and is
pushed unchanged. -/
def wrapVL : ValueList → Nat → ValueList × Nat
  | .nil, st => (.nil, st)
  | .cons v rest, st =>
    match v with
    | .ColorValue raw =>
        let out := wrapVL rest (st + 1)
        (.cons (.Field st raw) out.1, out.2)
    | .Literal s =>
        let out := wrapVL rest (st + 1)
        (.cons (.Field st s) out.1, out.2)
    | .NumberValue q u =>
        let out := wrapVL rest (st + 1)
        (.cons (.Field st (ratText q ++ u)) out.1, out.2)
    | .StringValue s singleQuote =>
        let q := if singleQuote then "\x27" else "\x22"
        let out := wrapVL rest (st + 1)
        (.cons (.Field st (q ++ s ++ q)) out.1, out.2)
    | .FunctionCall fname args =>
        let argsOut := wrapArgs args (st + 1)
        let out := wrapVL rest argsOut.2
        (.cons (.Field st fname)
          (.cons (.Literal "(") (appendVL argsOut.1 (.cons (.Literal ")") out.1))), out.2)
    | .Field i n =>
        let out := wrapVL rest st
        (.cons (.Field i n) out.1, out.2)

/-- The argument loop of the FunctionCall case: arguments are wrapped in
order with the shared state and joined with a literal comma separator
(no separator after the last). -/
def wrapArgs : CSSValueList → Nat → ValueList × Nat
  | .nil, st => (.nil, st)
  | .cons (.mk vl) .nil, st => wrapVL vl st
  | .cons (.mk vl) (.cons b rest), st =>
      let o := wrapVL vl st
      let os := wrapArgs (.cons b rest) o.2
      (appendVL o.1 (.cons (.Literal ", ") os.1), os.2)
end

/-- wrapWithField(node, state = { index: 1 }): wraps the tokens of a
value group with tab-stop fields; returns the new group and the final
counter value. -/
def wrapWithField (node : CSSValue) (st : Nat) : CSSValue × Nat :=
  match node with
  | .mk vl =>
    let out := wrapVL vl st
    (.mk out.1, out.2)

/-! ### Snippets (imported by src/stylesheet/index.ts from ./snippets,
which is not among the sources being verified) -/

/-- Modelled from the spec: a KeywordRef of the snippets module —
"{keyword: string, index: number} — a lightweight lookup key referencing
a position in a Property entry's value list" (spec 3). -/
structure CSSKeywordRef where
  keyword : String
  index : Nat

/-- Modelled from the spec: a Raw dictionary entry — "key string →
literal output text (no property semantics)" (spec 3). -/
structure CSSSnippetRaw where
  key : String
  value : String

/-- Modelled from the spec: a Property dictionary entry — "key string →
canonical property name + ordered list of ValueGroups representing
default/keyword values, plus a derived set of keyword aliases" (spec 3).
The derived aliases (what getKeywords of the missing snippets module
computes) are carried as a field. -/
structure CSSSnippetProperty where
  key : String
  property : String
  value : List (List CSSValue)
  keywords : List CSSKeywordRef

/-- Modelled from the spec: the tagged union of the two entry kinds
(CSSSnippetType.Property / CSSSnippetType.Raw dispatch of the source). -/
inductive CSSSnippet where
  | raw (r : CSSSnippetRaw)
  | property (p : CSSSnippetProperty)

/-- The snippet key, the string findBestMatch scores against
(getScoringPart falls back to item.key). -/
def CSSSnippet.key : CSSSnippet → String
  | .raw r => r.key
  | .property p => p.key

/-- Modelled from the spec: getKeywords(snippet) of the missing snippets
module returns the Property entry's derived keyword alias list. -/
def getKeywords (sn : CSSSnippetProperty) : List CSSKeywordRef :=
  sn.keywords

/-! ### The node resolution pipeline (src/stylesheet/index.ts, 42-120,
173-197, 226-233) -/

/-- literalValue(value): a value group holding one literal token. -/
def literalValue (value : String) : CSSValue :=
  .mk (.cons (.Literal value) .nil)

/-- setNodeAsText: clears the node name and replaces the value with a
single literal group. -/
def setNodeAsText (node : CSSProperty) (text : String) : CSSProperty :=
  { node with name := none, value := [literalValue text] }

/-- resolveAsSnippet: a Raw snippet match turns the node into its
literal text. -/
def resolveAsSnippet (node : CSSProperty) (snippet : CSSSnippetRaw) : CSSProperty :=
  setNodeAsText node snippet.value

/-- getSingleKeyword: the literal token when the node value is exactly
one group holding exactly one Literal token (the source returns the
token; the embedding returns its text). -/
def getSingleKeyword (node : CSSProperty) : Option String :=
  match node.value with
  | [CSSValue.mk (.cons (.Literal s) .nil)] => some s
  | _ => none

/-- resolveSnippetKeyword: fuzzy-matches kw against the snippet's
keyword aliases and, on a match, replaces the node value with the
referenced value group list (the source indexes snippet.value with a
non-null assertion; the embedding defaults out-of-range to []).
Returns the rewritten node and the success flag the source returns. -/
def resolveSnippetKeyword (sc : String → String → Rat) (node : CSSProperty)
    (kw : String) (snippet : CSSSnippetProperty) (minScore : Option Rat) :
    CSSProperty × Bool :=
  match findBestMatch sc kw (getKeywords snippet) CSSKeywordRef.keyword minScore with
  | some ref => ({ node with value := (snippet.value[ref.index]?).getD [] }, true)
  | none => (node, false)

/-- resolveGlobalKeyword: fuzzy-matches kw against the configured global
keyword list and, on a match, replaces the node value with a literal
group for the matched keyword. -/
def resolveGlobalKeyword (sc : String → String → Rat) (node : CSSProperty)
    (kw : String) (cfg : Config) (minScore : Option Rat) : CSSProperty × Bool :=
  match findBestMatch sc kw cfg.keywords (fun s => s) minScore with
  | some ref => ({ node with value := [literalValue ref] }, true)
  | none => (node, false)

/-- resolveAsProperty (lines 67-90): renames the node to the canonical
property; with no explicit value it resolves the unmatched remainder as
a snippet keyword (no minimum score is passed) and otherwise installs
the snippet's first default value group list, wrapping each group with
tab-stop fields from a fresh counter 1 unless a group already contains
fields; with an explicit single bare literal value it resolves that
keyword against the snippet aliases and then the global keywords, both
without a minimum score. -/
def resolveAsProperty (sc : String → String → Rat) (node : CSSProperty)
    (snippet : CSSSnippetProperty) (cfg : Config) : CSSProperty :=
  let abbr := node.name.getD ""
  let node1 : CSSProperty := { node with name := some snippet.property }
  if node1.value.isEmpty then
    let res := resolveSnippetKeyword sc node1 (getUnmatchedPart abbr snippet.key) snippet none
    if res.2 then res.1
    else if snippet.value.length ≠ 0 then
      let defaultValue := (snippet.value[0]?).getD []
      { res.1 with value :=
          if defaultValue.any hasField then defaultValue
          else defaultValue.map (fun n => (wrapWithField n 1).1) }
    else res.1
  else
    match getSingleKeyword node1 with
    | some kw =>
      let res := resolveSnippetKeyword sc node1 kw snippet none
      if res.2 then res.1 else (resolveGlobalKeyword sc res.1 kw cfg none).1
    | none => node1

/-- resolveAsPropertyValue (lines 103-111): context mode; resolves a
single bare keyword against the context snippet's aliases and then the
global keywords, both at the configured fuzzySearchMinScore. -/
def resolveAsPropertyValue (sc : String → String → Rat) (node : CSSProperty)
    (cfg : Config) (snippet : Option CSSSnippetProperty) : CSSProperty :=
  match getSingleKeyword node with
  | some kw =>
    let score := cfg.fuzzySearchMinScore
    let res := match snippet with
      | some sn => resolveSnippetKeyword sc node kw sn (some score)
      | none => (node, false)
    if res.2 then res.1 else (resolveGlobalKeyword sc res.1 kw cfg (some score)).1
  | none => node

/-- snippets.find(s => s.type === Property && s.property === context). -/
def findContextSnippet : List CSSSnippet → String → Option CSSSnippetProperty
  | [], _ => none
  | .property p :: rest, ctx =>
    if p.property = ctx then some p else findContextSnippet rest ctx
  | .raw _ :: rest, ctx => findContextSnippet rest ctx

/-- The truthiness test if (config.context) of the source: an absent or
empty context string selects property-name matching. -/
def contextName (cfg : Config) : Option String :=
  match cfg.context with
  | some c => if c = "" then none else some c
  | none => none

/-- resolveNode (lines 42-62): in context mode, resolve as a property
value; otherwise fuzzy-match the node name against the snippet table at
the configured minimum score and dispatch on the matched snippet kind,
leaving the node untouched when nothing matches; numeric-unit inference
always runs last. -/
def resolveNode (sc : String → String → Rat) (node : CSSProperty)
    (snippets : List CSSSnippet) (cfg : Config) : CSSProperty :=
  let node1 :=
    match contextName cfg with
    | some ctx => resolveAsPropertyValue sc node cfg (findContextSnippet snippets ctx)
    | none =>
      match findBestMatch sc (node.name.getD "") snippets CSSSnippet.key
          (some cfg.fuzzySearchMinScore) with
      | some (.property p) => resolveAsProperty sc node p cfg
      | some (.raw r) => resolveAsSnippet node r
      | none => node
  resolveNumericValue node1 cfg

/-- C7: with no resolution context, a node whose name matches no
snippet at the configured minimum score is left structurally
unresolved: resolveNode (a total function — the no-match outcome is the
none result of findBestMatch, not an exception) returns exactly the
numeric-unit inference of the unchanged node, and the node name passes
through unchanged. -/
theorem C7_no_match_passthrough (sc : String → String → Rat) (node : CSSProperty)
    (snippets : List CSSSnippet) (cfg : Config)
    (hctx : cfg.context = none)
    (hnm : findBestMatch sc (node.name.getD "") snippets CSSSnippet.key
        (some cfg.fuzzySearchMinScore) = none) :
    resolveNode sc node snippets cfg = resolveNumericValue node cfg ∧
    (resolveNode sc node snippets cfg).name = node.name := by
  have h1 : resolveNode sc node snippets cfg = resolveNumericValue node cfg := by
    unfold resolveNode
    rw [show contextName cfg = none by unfold contextName; rw [hctx], hnm]
  exact ⟨h1, by rw [h1]; rfl⟩

/-- Witness for C7: an empty snippet table matches nothing. -/
theorem C7_witness :
    cfgStable.context = none ∧
    resolveNode (fun _ _ => 0) nodeChain [] cfgStable =
      resolveNumericValue nodeChain cfgStable :=
  ⟨rfl, (C7_no_match_passthrough (fun _ _ => 0) nodeChain [] cfgStable rfl rfl).1⟩

/-- C10: resolveAsProperty resolves keywords (for the unmatched
remainder as well as for an explicit bare literal) without a minimum
score — its result does not depend on stylesheet.fuzzySearchMinScore at
all, only on the global keyword list; an omitted minScore means
findBestMatch defaults to 0; and context-mode value resolution
(resolveAsPropertyValue) does pass the configured threshold to both
keyword lookups, so when both lookups fail at that threshold the node
is returned unchanged (resolveNode passes the same threshold to
property-name matching, visible in its definition and in C7). -/
theorem C10_keyword_min_score_usage :
    (∀ (sc : String → String → Rat) (node : CSSProperty) (sn : CSSSnippetProperty)
        (cfg1 cfg2 : Config), cfg1.keywords = cfg2.keywords →
      resolveAsProperty sc node sn cfg1 = resolveAsProperty sc node sn cfg2) ∧
    (∀ (T : Type) (sc : String → String → Rat) (abbr : String) (items : List T)
        (keyOf : T → String),
      findBestMatch sc abbr items keyOf none = findBestMatch sc abbr items keyOf (some 0)) ∧
    (∀ (sc : String → String → Rat) (node : CSSProperty) (cfg : Config)
        (sn : CSSSnippetProperty) (kw : String),
      getSingleKeyword node = some kw →
      findBestMatch sc kw (getKeywords sn) CSSKeywordRef.keyword
          (some cfg.fuzzySearchMinScore) = none →
      findBestMatch sc kw cfg.keywords (fun s => s) (some cfg.fuzzySearchMinScore) = none →
      resolveAsPropertyValue sc node cfg (some sn) = node) := by
  refine ⟨?_, ?_, ?_⟩
  · intro sc node sn cfg1 cfg2 h
    unfold resolveAsProperty resolveGlobalKeyword
    rw [h]
  · intro T sc abbr items keyOf
    rfl
  · intro sc node cfg sn kw hkw h1 h2
    simp [resolveAsPropertyValue, resolveSnippetKeyword, resolveGlobalKeyword, hkw, h1, h2]

/-- A concrete Property snippet for the C10 witness. -/
def snippetPos : CSSSnippetProperty :=
  { key := "pos", property := "position",
    value := [[literalValue "relative"]],
    keywords := [{ keyword := "absolute", index := 0 }] }

/-- A context-mode node carrying the single bare literal abs. -/
def nodeKw : CSSProperty :=
  { name := none, value := [literalValue "abs"] }

/-- Witness for C10: threshold-field invariance of resolveAsProperty at
two configs agreeing on keywords, and a context-mode resolution blocked
by the configured threshold leaving the node unchanged. -/
theorem C10_witness :
    (cfgStable.keywords = cfgChain.keywords) ∧
    resolveAsProperty (fun _ _ => 0) nodeKw snippetPos cfgStable =
      resolveAsProperty (fun _ _ => 0) nodeKw snippetPos cfgChain ∧
    resolveAsPropertyValue (fun _ _ => 0) nodeKw cfgStable (some snippetPos) = nodeKw :=
  ⟨rfl,
    C10_keyword_min_score_usage.1 (fun _ _ => 0) nodeKw snippetPos cfgStable cfgChain rfl,
    C10_keyword_min_score_usage.2.2 (fun _ _ => 0) nodeKw cfgStable snippetPos "abs"
      rfl rfl rfl⟩

/-! ### Field numbering of wrapWithField (claim C2) -/

/-- The indices of the Field tokens of a token list, in order (the
output of wrapWithField is flat: function calls are flattened into a
field for the name plus literal punctuation). -/
def fieldIdxVL : ValueList → List Nat
  | .nil => []
  | .cons (.Field i _) rest => i :: fieldIdxVL rest
  | .cons _ rest => fieldIdxVL rest

mutual
/-- Number of fields wrapWithField creates for a token list: one per
leaf token, one for each function-call name plus its arguments'
leaves, none for a pre-existing Field (pushed unchanged). -/
def leafVL : ValueList → Nat
  | .nil => 0
  | .cons (.FunctionCall _ args) rest => leafArgs args + leafVL rest + 1
  | .cons (.Field _ _) rest => leafVL rest
  | .cons _ rest => leafVL rest + 1

def leafArgs : CSSValueList → Nat
  | .nil => 0
  | .cons (.mk vl) rest => leafVL vl + leafArgs rest
end

/-- Number of fields wrapWithField creates for a value group. -/
def leafCount : CSSValue → Nat
  | .mk vl => leafVL vl

theorem fieldIdx_append : ∀ a b : ValueList,
    fieldIdxVL (appendVL a b) = fieldIdxVL a ++ fieldIdxVL b
  | .nil, b => rfl
  | .cons v a, b => by
    cases v <;> simp [appendVL, fieldIdxVL, fieldIdx_append a b]

mutual
theorem wrapVL_spec : ∀ (vl : ValueList) (st : Nat), hasFieldVL vl = false →
    fieldIdxVL (wrapVL vl st).1 = List.range' st (leafVL vl) ∧
    (wrapVL vl st).2 = st + leafVL vl
  | .nil, st, _ => ⟨rfl, rfl⟩
  | .cons v rest, st, h => by
    cases v with
    | ColorValue raw =>
      have hr : hasFieldVL rest = false := by simpa [hasFieldVL] using h
      have ih := wrapVL_spec rest (st + 1) hr
      refine ⟨?_, ?_⟩
      · show st :: fieldIdxVL (wrapVL rest (st + 1)).1 = List.range' st (leafVL rest + 1)
        rw [ih.1, List.range'_succ]
      · show (wrapVL rest (st + 1)).2 = st + (leafVL rest + 1)
        rw [ih.2]; omega
    | Literal s =>
      have hr : hasFieldVL rest = false := by simpa [hasFieldVL] using h
      have ih := wrapVL_spec rest (st + 1) hr
      refine ⟨?_, ?_⟩
      · show st :: fieldIdxVL (wrapVL rest (st + 1)).1 = List.range' st (leafVL rest + 1)
        rw [ih.1, List.range'_succ]
      · show (wrapVL rest (st + 1)).2 = st + (leafVL rest + 1)
        rw [ih.2]; omega
    | NumberValue q u =>
      have hr : hasFieldVL rest = false := by simpa [hasFieldVL] using h
      have ih := wrapVL_spec rest (st + 1) hr
      refine ⟨?_, ?_⟩
      · show st :: fieldIdxVL (wrapVL rest (st + 1)).1 = List.range' st (leafVL rest + 1)
        rw [ih.1, List.range'_succ]
      · show (wrapVL rest (st + 1)).2 = st + (leafVL rest + 1)
        rw [ih.2]; omega
    | StringValue s sq =>
      have hr : hasFieldVL rest = false := by simpa [hasFieldVL] using h
      have ih := wrapVL_spec rest (st + 1) hr
      refine ⟨?_, ?_⟩
      · show st :: fieldIdxVL (wrapVL rest (st + 1)).1 = List.range' st (leafVL rest + 1)
        rw [ih.1, List.range'_succ]
      · show (wrapVL rest (st + 1)).2 = st + (leafVL rest + 1)
        rw [ih.2]; omega
    | FunctionCall fname args =>
      have hsplit : hasFieldArgs args = false ∧ hasFieldVL rest = false := by
        simpa [hasFieldVL] using h
      have iha := wrapArgs_spec args (st + 1) hsplit.1
      have ihr := wrapVL_spec rest (wrapArgs args (st + 1)).2 hsplit.2
      refine ⟨?_, ?_⟩
      · show st :: fieldIdxVL (appendVL (wrapArgs args (st + 1)).1
            (.cons (.Literal ")") (wrapVL rest (wrapArgs args (st + 1)).2).1)) =
          List.range' st (leafArgs args + leafVL rest + 1)
        rw [fieldIdx_append]
        show st :: (fieldIdxVL (wrapArgs args (st + 1)).1 ++
            fieldIdxVL (wrapVL rest (wrapArgs args (st + 1)).2).1) = _
        rw [iha.1, ihr.1, iha.2]
        rw [show st + 1 + leafArgs args = st + 1 + leafArgs args from rfl,
          List.range'_append_1 (st + 1) (leafArgs args) (leafVL rest)]
        rw [show leafArgs args + leafVL rest + 1 = leafVL rest + leafArgs args + 1 by omega,
          List.range'_succ]
      · show (wrapVL rest (wrapArgs args (st + 1)).2).2 = st + (leafArgs args + leafVL rest + 1)
        rw [ihr.2, iha.2]; omega
    | Field i n =>
      simp [hasFieldVL] at h

theorem wrapArgs_spec : ∀ (args : CSSValueList) (st : Nat), hasFieldArgs args = false →
    fieldIdxVL (wrapArgs args st).1 = List.range' st (leafArgs args) ∧
    (wrapArgs args st).2 = st + leafArgs args
  | .nil, st, _ => ⟨rfl, rfl⟩
  | .cons (.mk vl) .nil, st, h => by
    have hv : hasFieldVL vl = false := by simpa [hasFieldArgs, hasField] using h
    exact wrapVL_spec vl st hv
  | .cons (.mk vl) (.cons b rest), st, h => by
    have hsplit : hasFieldVL vl = false ∧ hasFieldArgs (.cons b rest) = false := by
      simpa [hasFieldArgs, hasField] using h
    have ihv := wrapVL_spec vl st hsplit.1
    have ihr := wrapArgs_spec (.cons b rest) (wrapVL vl st).2 hsplit.2
    refine ⟨?_, ?_⟩
    · show fieldIdxVL (appendVL (wrapVL vl st).1
          (.cons (.Literal ", ") (wrapArgs (.cons b rest) (wrapVL vl st).2).1)) = _
      rw [fieldIdx_append]
      show fieldIdxVL (wrapVL vl st).1 ++
          fieldIdxVL (wrapArgs (.cons b rest) (wrapVL vl st).2).1 = _
      rw [ihv.1, ihr.1, ihv.2, List.range'_append_1 st (leafVL vl) (leafArgs (.cons b rest))]
      rw [show leafArgs (.cons (.mk vl) (.cons b rest)) =
        leafArgs (.cons b rest) + leafVL vl from by simp [leafArgs]; omega]
    · show (wrapArgs (.cons b rest) (wrapVL vl st).2).2 = _
      rw [ihr.2, ihv.2]
      show st + leafVL vl + leafArgs (.cons b rest) = st + (leafVL vl + leafArgs (.cons b rest))
      omega
end

/-- C2: wrapping a field-free value group whose tree holds N leaf
tokens (counting one per function-call name, shared across nested
arguments) assigns the field indices st, st+1, ..., st+N-1 in
left-to-right depth-first order — range' st N, so no gaps and no
repeats — and leaves the shared counter at st+N; in particular the call
wrapWithField(group, {index: 1}) that resolveAsProperty performs on
each group of a snippet's default value assigns exactly 1..N. -/
theorem C2_field_numbering :
    ∀ (v : CSSValue) (st : Nat), hasField v = false →
      fieldIdxVL (wrapWithField v st).1.value = List.range' st (leafCount v) ∧
      (wrapWithField v st).2 = st + leafCount v := by
  intro v st h
  cases v with
  | mk vl =>
    have h' : hasFieldVL vl = false := h
    exact ⟨(wrapVL_spec vl st h').1, (wrapVL_spec vl st h').2⟩

/-- A field-free value group with a nested function call:
a f(2px, b) #fff. -/
def wrapSample : CSSValue :=
  .mk (.cons (.Literal "a") (.cons (.FunctionCall "f"
    (.cons (.mk (.cons (.NumberValue 2 "px") .nil))
      (.cons (.mk (.cons (.Literal "b") .nil)) .nil)))
    (.cons (.ColorValue "#fff") .nil)))

/-- Witness for C2: the sample group has five leaves and receives the
field indices 1..5 from the default counter. -/
theorem C2_witness :
    hasField wrapSample = false ∧
    fieldIdxVL (wrapWithField wrapSample 1).1.value =
      List.range' 1 (leafCount wrapSample) :=
  ⟨by decide, (C2_field_numbering wrapSample 1 (by decide)).1⟩

/-! ### The generic tree walker (the walk module of the sources)

The source walks an abbreviation with a caller-supplied visitor:
callback saves current/parent, points them at the visited node, runs the
visitor (which receives the mutable state and the continuation next),
and restores them; next pushes state.current onto state.ancestors, runs
callback on the requested node and pops.

The embedding makes the mutation explicit: a visitor is modelled by the
script of actions it performs during one invocation — updates of the
non-traversal state (field / out / profile) interleaved with calls of
the continuation on children of the visited node (the form every
visitor of the code base takes: node.children.forEach(next)); the
script may depend on everything the visitor can see at entry.  The
runner is fuel-indexed to make the (input-dependent but terminating)
recursion through the visitor structural; out of fuel it returns the
state unchanged, and every theorem below holds for all fuel values.
A trace entry records, at each visitor invocation, the visited node,
the state the visitor observes, and the ghost root-to-parent path of
the invocation, maintained independently of state.ancestors. -/

/-- A node of the walked abbreviation tree (walk reads nothing but the
children relation; a label keeps distinct nodes distinguishable). -/
inductive AbbrNode where
  | mk (label : String) (children : List AbbrNode)

/-- The children of a node. -/
def AbbrNode.children : AbbrNode → List AbbrNode
  | .mk _ cs => cs

/-- The abbreviation: walk iterates abbr.children. -/
structure Abbreviation where
  children : List AbbrNode

/-- WalkState of the source: context node, its parent, the ancestor
stack, and the non-traversal fields (field counter, output stream,
output profile — the latter two modelled as plain data). -/
structure WalkState where
  current : AbbrNode
  parent : Option AbbrNode
  ancestors : List AbbrNode
  field : Nat
  out : List String
  profile : String

/-- The non-traversal slice of the state, the only part a visitor
mutates directly (it touches the traversal fields only through next). -/
structure UserPart where
  field : Nat
  out : List String
  profile : String

/-- One step of a visitor invocation: either an arbitrary update of the
non-traversal state, or a call of the continuation next on the visited
node's i-th child (with index and sibling list as the source passes
them). -/
inductive WalkAct where
  | user (f : UserPart → UserPart)
  | recurse (i : Nat)

/-- A visitor, modelled by the script of actions it performs, given
what it observes at invocation: the visited node, its index and sibling
list, and the state. -/
def Visitor : Type :=
  AbbrNode → Nat → List AbbrNode → WalkState → List WalkAct

/-- What a visitor invocation observed, plus the ghost root-to-parent
path of the invocation. -/
structure TraceEntry where
  node : AbbrNode
  path : List AbbrNode
  current : AbbrNode
  parent : Option AbbrNode
  ancestors : List AbbrNode

/-- Apply a user action to the non-traversal fields. -/
def applyUser (f : UserPart → UserPart) (st : WalkState) : WalkState :=
  let u := f { field := st.field, out := st.out, profile := st.profile }
  { st with field := u.field, out := u.out, profile := u.profile }

/-- state.parent = current; state.current = ctx (the first two
assignments of callback). -/
def pointAt (st : WalkState) (ctx : AbbrNode) : WalkState :=
  { st with parent := some st.current, current := ctx }

/-- state.current = current; state.parent = parent (the restoring
assignments of callback, from the values saved at entry). -/
def restoreCP (res st : WalkState) : WalkState :=
  { res with current := st.current, parent := st.parent }

/-- state.ancestors.push(state.current) (first line of next). -/
def pushCur (st : WalkState) : WalkState :=
  { st with ancestors := st.ancestors ++ [st.current] }

/-- state.ancestors.pop() (last line of next). -/
def popAnc (st : WalkState) : WalkState :=
  { st with ancestors := st.ancestors.dropLast }

mutual
/-- The callback of walk: saves parent/current, repoints them at the
visited node, records the invocation, runs the visitor's script, and
restores parent/current. -/
def runCallback : Nat → Visitor → AbbrNode → Nat → List AbbrNode → List AbbrNode →
    WalkState → WalkState × List TraceEntry
  | 0, _, _, _, _, _, st => (st, [])
  | fuel + 1, v, ctx, idx, items, path, st =>
    let st1 := pointAt st ctx
    let entry : TraceEntry :=
      { node := ctx, path := path, current := st1.current,
        parent := st1.parent, ancestors := st1.ancestors }
    let res := runActs fuel v ctx path (v ctx idx items st1) st1
    (restoreCP res.1 st, entry :: res.2)

/-- Run the remaining actions of a visitor invocation on ctx.  A
recurse action is the body of next: push state.current, run callback on
the child, pop. -/
def runActs : Nat → Visitor → AbbrNode → List AbbrNode → List WalkAct →
    WalkState → WalkState × List TraceEntry
  | 0, _, _, _, _, st => (st, [])
  | _ + 1, _, _, _, [], st => (st, [])
  | fuel + 1, v, ctx, path, .user f :: rest, st =>
    runActs fuel v ctx path rest (applyUser f st)
  | fuel + 1, v, ctx, path, .recurse i :: rest, st =>
    match ctx.children[i]? with
    | none => runActs fuel v ctx path rest st
    | some child =>
      let r1 := runCallback fuel v child i ctx.children (path ++ [ctx]) (pushCur st)
      let r2 := runActs fuel v ctx path rest (popAnc r1.1)
      (r2.1, r1.2 ++ r2.2)
end

/-- abbr.children.forEach(callback): the top-level loop of walk. -/
def walkTop (fuel : Nat) (v : Visitor) (allItems : List AbbrNode) :
    List AbbrNode → Nat → WalkState → WalkState × List TraceEntry
  | [], _, st => (st, [])
  | c :: rest, idx, st =>
    let r1 := runCallback fuel v c idx allItems [] st
    let r2 := walkTop fuel v allItems rest (idx + 1) r1.1
    (r2.1, r1.2 ++ r2.2)

/-- walk(abbr, visitor, state), returning the final state and the trace
of visitor invocations. -/
def walk (fuel : Nat) (abbr : Abbreviation) (v : Visitor) (st : WalkState) :
    WalkState × List TraceEntry :=
  walkTop fuel v abbr.children abbr.children 0 st

theorem runCallback_succ (fuel : Nat) (v : Visitor) (ctx : AbbrNode) (idx : Nat)
    (items path : List AbbrNode) (st : WalkState) :
    runCallback (fuel + 1) v ctx idx items path st =
      (restoreCP (runActs fuel v ctx path
          (v ctx idx items (pointAt st ctx)) (pointAt st ctx)).1 st,
       ({ node := ctx, path := path, current := ctx, parent := some st.current,
          ancestors := st.ancestors } : TraceEntry) ::
        (runActs fuel v ctx path
          (v ctx idx items (pointAt st ctx)) (pointAt st ctx)).2) := rfl

theorem runActs_user (fuel : Nat) (v : Visitor) (ctx : AbbrNode) (path : List AbbrNode)
    (f : UserPart → UserPart) (rest : List WalkAct) (st : WalkState) :
    runActs (fuel + 1) v ctx path (.user f :: rest) st =
      runActs fuel v ctx path rest (applyUser f st) := rfl

theorem runActs_recurse (fuel : Nat) (v : Visitor) (ctx : AbbrNode) (path : List AbbrNode)
    (i : Nat) (rest : List WalkAct) (st : WalkState) :
    runActs (fuel + 1) v ctx path (.recurse i :: rest) st =
      match ctx.children[i]? with
      | none => runActs fuel v ctx path rest st
      | some child =>
        ((runActs fuel v ctx path rest (popAnc (runCallback fuel v child i ctx.children
            (path ++ [ctx]) (pushCur st)).1)).1,
         (runCallback fuel v child i ctx.children (path ++ [ctx]) (pushCur st)).2 ++
         (runActs fuel v ctx path rest (popAnc (runCallback fuel v child i ctx.children
            (path ++ [ctx]) (pushCur st)).1)).2) := rfl

theorem runActs_recurse_none (fuel : Nat) (v : Visitor) (ctx : AbbrNode)
    (path : List AbbrNode) (i : Nat) (rest : List WalkAct) (st : WalkState)
    (hc : ctx.children[i]? = none) :
    runActs (fuel + 1) v ctx path (.recurse i :: rest) st =
      runActs fuel v ctx path rest st := by
  rw [runActs_recurse, hc]

theorem runActs_recurse_some (fuel : Nat) (v : Visitor) (ctx : AbbrNode)
    (path : List AbbrNode) (i : Nat) (rest : List WalkAct) (st : WalkState)
    (child : AbbrNode) (hc : ctx.children[i]? = some child) :
    runActs (fuel + 1) v ctx path (.recurse i :: rest) st =
      ((runActs fuel v ctx path rest (popAnc (runCallback fuel v child i ctx.children
          (path ++ [ctx]) (pushCur st)).1)).1,
       (runCallback fuel v child i ctx.children (path ++ [ctx]) (pushCur st)).2 ++
       (runActs fuel v ctx path rest (popAnc (runCallback fuel v child i ctx.children
          (path ++ [ctx]) (pushCur st)).1)).2) := by
  rw [runActs_recurse, hc]

/-- Restoration: whatever the visitor scripts do, one callback (and any
action sequence) leaves current, parent and the ancestor stack exactly
as it found them. -/
theorem walk_restore : ∀ (fuel : Nat) (v : Visitor),
    (∀ (ctx : AbbrNode) (idx : Nat) (items path : List AbbrNode) (st : WalkState),
      (runCallback fuel v ctx idx items path st).1.current = st.current ∧
      (runCallback fuel v ctx idx items path st).1.parent = st.parent ∧
      (runCallback fuel v ctx idx items path st).1.ancestors = st.ancestors) ∧
    (∀ (ctx : AbbrNode) (path : List AbbrNode) (acts : List WalkAct) (st : WalkState),
      (runActs fuel v ctx path acts st).1.current = st.current ∧
      (runActs fuel v ctx path acts st).1.parent = st.parent ∧
      (runActs fuel v ctx path acts st).1.ancestors = st.ancestors)
  | 0, v => ⟨fun _ _ _ _ _ => ⟨rfl, rfl, rfl⟩, fun _ _ _ _ => ⟨rfl, rfl, rfl⟩⟩
  | fuel + 1, v => by
    have ih := walk_restore fuel v
    constructor
    · intro ctx idx items path st
      rw [runCallback_succ]
      exact ⟨rfl, rfl,
        (ih.2 ctx path (v ctx idx items (pointAt st ctx)) (pointAt st ctx)).2.2⟩
    · intro ctx path acts st
      cases acts with
      | nil => exact ⟨rfl, rfl, rfl⟩
      | cons a rest =>
        cases a with
        | user f =>
          rw [runActs_user]
          exact ih.2 ctx path rest (applyUser f st)
        | recurse i =>
          cases hc : ctx.children[i]? with
          | none =>
            rw [runActs_recurse_none fuel v ctx path i rest st hc]
            exact ih.2 ctx path rest st
          | some child =>
            rw [runActs_recurse_some fuel v ctx path i rest st child hc]
            have h1 := ih.1 child i ctx.children (path ++ [ctx]) (pushCur st)
            have h2 := ih.2 ctx path rest
              (popAnc (runCallback fuel v child i ctx.children (path ++ [ctx]) (pushCur st)).1)
            refine ⟨h2.1.trans h1.1, h2.2.1.trans h1.2.1, h2.2.2.trans ?_⟩
            show ((runCallback fuel v child i ctx.children (path ++ [ctx])
                (pushCur st)).1).ancestors.dropLast = st.ancestors
            rw [h1.2.2]
            show (st.ancestors ++ [st.current]).dropLast = st.ancestors
            exact List.dropLast_concat

/-- The invariant of a recorded visitor invocation, relative to the
ancestors A0 and context node c0 the walk started from: the visitor
sees the visited node as current, the ancestor stack is exactly A0
followed by the root-to-parent path, and parent is the last node of
that path (the initial context for a top-level node). -/
def goodEntry (A0 : List AbbrNode) (c0 : AbbrNode) (e : TraceEntry) : Prop :=
  e.current = e.node ∧ e.ancestors = A0 ++ e.path ∧ e.parent = some (e.path.getLastD c0)

theorem walk_trace : ∀ (fuel : Nat) (v : Visitor) (A0 : List AbbrNode) (c0 : AbbrNode),
    (∀ (ctx : AbbrNode) (idx : Nat) (items path : List AbbrNode) (st : WalkState),
      st.ancestors = A0 ++ path → st.current = path.getLastD c0 →
      ∀ e ∈ (runCallback fuel v ctx idx items path st).2, goodEntry A0 c0 e) ∧
    (∀ (ctx : AbbrNode) (path : List AbbrNode) (acts : List WalkAct) (st : WalkState),
      st.ancestors = A0 ++ path → st.current = ctx →
      ∀ e ∈ (runActs fuel v ctx path acts st).2, goodEntry A0 c0 e)
  | 0, v, A0, c0 =>
    ⟨fun _ _ _ _ _ _ _ e he => absurd he (List.not_mem_nil e),
     fun _ _ _ _ _ _ e he => absurd he (List.not_mem_nil e)⟩
  | fuel + 1, v, A0, c0 => by
    have ih := walk_trace fuel v A0 c0
    constructor
    · intro ctx idx items path st h1 h2 e he
      rw [runCallback_succ] at he
      rcases List.mem_cons.1 he with rfl | hmem
      · exact ⟨rfl, h1, show some st.current = some (path.getLastD c0) by rw [h2]⟩
      · exact ih.2 ctx path (v ctx idx items (pointAt st ctx)) (pointAt st ctx) h1 rfl e hmem
    · intro ctx path acts st h1 h2 e he
      cases acts with
      | nil => exact absurd he (List.not_mem_nil e)
      | cons a rest =>
        cases a with
        | user f =>
          rw [runActs_user] at he
          exact ih.2 ctx path rest (applyUser f st) h1 h2 e he
        | recurse i =>
          cases hc : ctx.children[i]? with
          | none =>
            rw [runActs_recurse_none fuel v ctx path i rest st hc] at he
            exact ih.2 ctx path rest st h1 h2 e he
          | some child =>
            rw [runActs_recurse_some fuel v ctx path i rest st child hc] at he
            have hres := walk_restore fuel v
            rcases List.mem_append.1 he with hmem | hmem
            · refine ih.1 child i ctx.children (path ++ [ctx]) (pushCur st) ?_ ?_ e hmem
              · show st.ancestors ++ [st.current] = A0 ++ (path ++ [ctx])
                rw [h1, h2, List.append_assoc]
              · show st.current = (path ++ [ctx]).getLastD c0
                rw [List.getLastD_concat]
                exact h2
            · refine ih.2 ctx path rest
                (popAnc (runCallback fuel v child i ctx.children (path ++ [ctx])
                  (pushCur st)).1) ?_ ?_ e hmem
              · show ((runCallback fuel v child i ctx.children (path ++ [ctx])
                    (pushCur st)).1).ancestors.dropLast = A0 ++ path
                rw [(hres.1 child i ctx.children (path ++ [ctx]) (pushCur st)).2.2]
                show (st.ancestors ++ [st.current]).dropLast = A0 ++ path
                rw [List.dropLast_concat, h1]
              · show ((runCallback fuel v child i ctx.children (path ++ [ctx])
                    (pushCur st)).1).current = ctx
                rw [(hres.1 child i ctx.children (path ++ [ctx]) (pushCur st)).1]
                exact h2

theorem walkTop_restore (fuel : Nat) (v : Visitor) (allItems : List AbbrNode) :
    ∀ (items : List AbbrNode) (idx : Nat) (st : WalkState),
      (walkTop fuel v allItems items idx st).1.current = st.current ∧
      (walkTop fuel v allItems items idx st).1.parent = st.parent ∧
      (walkTop fuel v allItems items idx st).1.ancestors = st.ancestors
  | [], _, _ => ⟨rfl, rfl, rfl⟩
  | c :: rest, idx, st => by
    have h1 := (walk_restore fuel v).1 c idx allItems [] st
    have h2 := walkTop_restore fuel v allItems rest (idx + 1)
      (runCallback fuel v c idx allItems [] st).1
    exact ⟨h2.1.trans h1.1, h2.2.1.trans h1.2.1, h2.2.2.trans h1.2.2⟩

theorem walkTop_trace (fuel : Nat) (v : Visitor) (A0 : List AbbrNode) (c0 : AbbrNode)
    (allItems : List AbbrNode) :
    ∀ (items : List AbbrNode) (idx : Nat) (st : WalkState),
      st.ancestors = A0 → st.current = c0 →
      ∀ e ∈ (walkTop fuel v allItems items idx st).2, goodEntry A0 c0 e
  | [], _, _, _, _ => fun e he => absurd he (List.not_mem_nil e)
  | c :: rest, idx, st, h1, h2 => by
    intro e he
    have hW := walk_restore fuel v
    rcases List.mem_append.1 he with hmem | hmem
    · refine (walk_trace fuel v A0 c0).1 c idx allItems [] st ?_ h2 e hmem
      rw [h1, List.append_nil]
    · exact walkTop_trace fuel v A0 c0 allItems rest (idx + 1)
        (runCallback fuel v c idx allItems [] st).1
        ((hW.1 c idx allItems [] st).2.2.trans h1)
        ((hW.1 c idx allItems [] st).1.trans h2) e hmem

/-- C3: during every visitor invocation recorded by walk, the state
seen by the visitor satisfies: current is the visited node, ancestors
is exactly the initial ancestor list followed by the (ghost)
root-to-parent chain of the visited node, and parent is the last node
of that chain (the initial context node for a top-level child) — so
the stack contents depend only on the node's position, with no leakage
across sibling calls; and after walk returns, current, parent and
ancestors hold their initial values again (every inner visitor return
restores them, which the helper walk_restore states per call). -/
theorem C3_walk_ancestors (fuel : Nat) (abbr : Abbreviation) (v : Visitor) (st : WalkState) :
    (∀ e ∈ (walk fuel abbr v st).2,
      e.current = e.node ∧
      e.ancestors = st.ancestors ++ e.path ∧
      e.parent = some (e.path.getLastD st.current)) ∧
    ((walk fuel abbr v st).1.current = st.current ∧
     (walk fuel abbr v st).1.parent = st.parent ∧
     (walk fuel abbr v st).1.ancestors = st.ancestors) :=
  ⟨fun e he =>
    walkTop_trace fuel v st.ancestors st.current abbr.children abbr.children 0 st rfl rfl e he,
   walkTop_restore fuel v abbr.children abbr.children 0 st⟩

/-- Whether an action is a continuation call (rather than a mutation of
the non-traversal state). -/
def actIsRecurse : WalkAct → Bool
  | .recurse _ => true
  | .user _ => false

/-- A visitor that performs no updates of the non-traversal state: its
scripts consist of continuation calls only. -/
def noUserActs (v : Visitor) : Prop :=
  ∀ (n : AbbrNode) (i : Nat) (items : List AbbrNode) (s : WalkState),
    ∀ a ∈ v n i items s, actIsRecurse a = true

theorem walk_user_frame : ∀ (fuel : Nat) (v : Visitor), noUserActs v →
    (∀ (ctx : AbbrNode) (idx : Nat) (items path : List AbbrNode) (st : WalkState),
      (runCallback fuel v ctx idx items path st).1.field = st.field ∧
      (runCallback fuel v ctx idx items path st).1.out = st.out ∧
      (runCallback fuel v ctx idx items path st).1.profile = st.profile) ∧
    (∀ (ctx : AbbrNode) (path : List AbbrNode) (acts : List WalkAct) (st : WalkState),
      (∀ a ∈ acts, actIsRecurse a = true) →
      (runActs fuel v ctx path acts st).1.field = st.field ∧
      (runActs fuel v ctx path acts st).1.out = st.out ∧
      (runActs fuel v ctx path acts st).1.profile = st.profile)
  | 0, v, _ => ⟨fun _ _ _ _ _ => ⟨rfl, rfl, rfl⟩, fun _ _ _ _ _ => ⟨rfl, rfl, rfl⟩⟩
  | fuel + 1, v, hv => by
    have ih := walk_user_frame fuel v hv
    constructor
    · intro ctx idx items path st
      rw [runCallback_succ]
      have h := ih.2 ctx path (v ctx idx items (pointAt st ctx)) (pointAt st ctx)
        (hv ctx idx items (pointAt st ctx))
      exact ⟨h.1, h.2.1, h.2.2⟩
    · intro ctx path acts st hacts
      cases acts with
      | nil => exact ⟨rfl, rfl, rfl⟩
      | cons a rest =>
        cases a with
        | user f =>
          exact absurd (hacts _ (List.mem_cons_self ..)) (by simp [actIsRecurse])
        | recurse i =>
          have hrest : ∀ a ∈ rest, actIsRecurse a = true :=
            fun a ha => hacts a (List.mem_cons_of_mem _ ha)
          cases hc : ctx.children[i]? with
          | none =>
            rw [runActs_recurse_none fuel v ctx path i rest st hc]
            exact ih.2 ctx path rest st hrest
          | some child =>
            rw [runActs_recurse_some fuel v ctx path i rest st child hc]
            have h1 := ih.1 child i ctx.children (path ++ [ctx]) (pushCur st)
            have h2 := ih.2 ctx path rest
              (popAnc (runCallback fuel v child i ctx.children (path ++ [ctx]) (pushCur st)).1)
              hrest
            exact ⟨h2.1.trans h1.1, h2.2.1.trans h1.2.1, h2.2.2.trans h1.2.2⟩

theorem walkTop_user_frame (fuel : Nat) (v : Visitor) (allItems : List AbbrNode)
    (hv : noUserActs v) :
    ∀ (items : List AbbrNode) (idx : Nat) (st : WalkState),
      (walkTop fuel v allItems items idx st).1.field = st.field ∧
      (walkTop fuel v allItems items idx st).1.out = st.out ∧
      (walkTop fuel v allItems items idx st).1.profile = st.profile
  | [], _, _ => ⟨rfl, rfl, rfl⟩
  | c :: rest, idx, st => by
    have h1 := (walk_user_frame fuel v hv).1 c idx allItems [] st
    have h2 := walkTop_user_frame fuel v allItems hv rest (idx + 1)
      (runCallback fuel v c idx allItems [] st).1
    exact ⟨h2.1.trans h1.1, h2.2.1.trans h1.2.1, h2.2.2.trans h1.2.2⟩

/-- C9: walk itself only mutates current, parent and ancestors — for
every visitor, the final state has its initial current/parent/ancestors
back (every ancestors push is paired with a pop), and whenever the
visitor performs no updates of field/out/profile, those three fields
are returned exactly as supplied (in the embedding, walk touches them
only through the visitor's own actions). -/
theorem C9_walk_frame (fuel : Nat) (abbr : Abbreviation) (v : Visitor) (st : WalkState) :
    ((walk fuel abbr v st).1.current = st.current ∧
     (walk fuel abbr v st).1.parent = st.parent ∧
     (walk fuel abbr v st).1.ancestors = st.ancestors) ∧
    (noUserActs v →
      (walk fuel abbr v st).1.field = st.field ∧
      (walk fuel abbr v st).1.out = st.out ∧
      (walk fuel abbr v st).1.profile = st.profile) :=
  ⟨walkTop_restore fuel v abbr.children abbr.children 0 st,
   fun hv => walkTop_user_frame fuel v abbr.children hv abbr.children 0 st⟩

/-- A three-level sample tree: root abbreviation containing a, a
containing b, b containing c. -/
def nodeC : AbbrNode := .mk "c" []

def nodeB : AbbrNode := .mk "b" [nodeC]

def nodeA : AbbrNode := .mk "a" [nodeB]

def abbrSample : Abbreviation := ⟨[nodeA]⟩

def rootNode : AbbrNode := .mk "root" []

def st0 : WalkState :=
  { current := rootNode, parent := none, ancestors := [],
    field := 1, out := [], profile := "markup" }

/-- The visitor of the sample walks: descend into the first child. -/
def visRecurse : Visitor := fun _ _ _ _ => [WalkAct.recurse 0]

/-- The invocation of the sample walk at depth three. -/
def entryC : TraceEntry :=
  { node := nodeC, path := [nodeA, nodeB], current := nodeC,
    parent := some nodeB, ancestors := [nodeA, nodeB] }

/-- Witness for C3: at the depth-three node c the ancestor stack holds
exactly [a, b] and parent is b. -/
theorem C3_witness :
    entryC ∈ (walk 9 abbrSample visRecurse st0).2 ∧
    (entryC.current = entryC.node ∧
     entryC.ancestors = st0.ancestors ++ entryC.path ∧
     entryC.parent = some (entryC.path.getLastD st0.current)) := by
  have hmem : entryC ∈ (walk 9 abbrSample visRecurse st0).2 := by
    rw [show (walk 9 abbrSample visRecurse st0).2 =
      [{ node := nodeA, path := [], current := nodeA, parent := some rootNode,
         ancestors := [] },
       { node := nodeB, path := [nodeA], current := nodeB, parent := some nodeA,
         ancestors := [nodeA] },
       entryC] from rfl]
    exact List.mem_cons_of_mem _ (List.mem_cons_of_mem _ (List.mem_cons_self ..))
  exact ⟨hmem, (C3_walk_ancestors 9 abbrSample visRecurse st0).1 entryC hmem⟩

/-- Witness for C9: the recursing visitor has no user actions and the
sample walk returns field/out/profile untouched. -/
theorem C9_witness :
    noUserActs visRecurse ∧
    ((walk 9 abbrSample visRecurse st0).1.field = st0.field ∧
     (walk 9 abbrSample visRecurse st0).1.out = st0.out ∧
     (walk 9 abbrSample visRecurse st0).1.profile = st0.profile) := by
  have hv : noUserActs visRecurse := by
    intro n i items s a ha
    rw [show visRecurse n i items s = [WalkAct.recurse 0] from rfl] at ha
    rcases List.mem_cons.1 ha with rfl | h
    · rfl
    · exact absurd h (List.not_mem_nil a)
  exact ⟨hv, (C9_walk_frame 9 abbrSample visRecurse st0).2 hv⟩

end Emmet
